import Mathlib

/-!
# Verification of `add_files_simple.py` (Voice-Commands repository)

Shallow embedding of the Xcode project-file updater script.  Text is
modelled as `List Char`; the Python regular expressions used by the
script are modelled by executable scanning functions whose semantics
coincide with the (backtracking) regex semantics on the concrete
patterns used by the source:

* `re.findall(r'path = ([^;]+\.swift);', text)`: at a given position the
  pattern matches iff the text starts with `path = `, the maximal run of
  non-`;` characters that follows ends with `.swift`, is longer than
  `.swift` itself (the `[^;]+` part must contribute at least one
  character), and the character immediately after the run is `;`.  The
  greedy `[^;]+` with backtracking admits exactly this one solution,
  because `.swift` contains no `;` and must be followed by `;`, which
  forces the capture to be the whole run.  `findall` scans left to
  right, resuming after each non-overlapping match.

* `re.search` on literal section markers: first index at which the
  literal is a prefix of the remaining text.

* `re.search(r'(/\* Sources \*/ = \{[^}]+files = \([^)]+)', ...)` and the
  analogous per-group pattern: first position where the head literal
  matches, then the greedy, backtracking `[^}]+` picks the *largest*
  split of the following text (within the maximal `}`-free run) at which
  the second literal (`files = (` resp. `children = (`) matches and is
  followed by at least one non-`)` character; the final `[^)]+` is
  greedy and nothing follows it, so the match ends at the end of the
  maximal non-`)` run.  The per-group pattern interpolates the group
  name into the regex source (line 152), so the name is compiled as
  regex, not matched literally: this model gives the compiled pattern's
  semantics only for group names free of `re` metacharacters, and
  treats runs that reach the group step with any other group name as
  unmodelled/aborting (see `addFilesToGroup`).

`uuid.uuid4().hex` is modelled by an externally supplied stream of
128-bit numbers rendered as 32 lowercase hex digits.  Python `set`
iteration order (used when distributing files over groups) is
unspecified; the model fixes a concrete enumeration of the distinct
group names, which no claim depends on.
-/

/-- The double-quote character (written numerically to keep source text plain). -/
def dq : Char := Char.ofNat 34

/-- The closing-brace character `}`. -/
def rbrace : Char := Char.ofNat 125

/-- The opening-brace character `{`. -/
def lbrace : Char := Char.ofNat 123

/-- The literal `path = ` that starts every match of the extraction regex. -/
def pathEq : List Char := "path = ".toList

/-- The literal `.swift` required at the end of each extracted path. -/
def swiftSuffix : List Char := ".swift".toList

/-- `sfx` is a suffix of `l` (boolean, by comparing the final segment). -/
def endsWith (sfx l : List Char) : Bool :=
  decide (sfx.length ≤ l.length) && decide (l.drop (l.length - sfx.length) = sfx)

/-- Python `str.strip('"')`: remove every leading and trailing `"`. -/
def stripQuotes (l : List Char) : List Char :=
  ((l.dropWhile (fun c => c = dq)).reverse.dropWhile (fun c => c = dq)).reverse

/-- One attempted match of `path = ([^;]+\.swift);` at the head of `s`.
Returns the capture group and the remaining text after the match. -/
def matchAt (s : List Char) : Option (List Char × List Char) :=
  if pathEq.isPrefixOf s then
    let s1 := s.drop pathEq.length
    let cap := s1.takeWhile (fun c => c ≠ ';')
    if endsWith swiftSuffix cap ∧ swiftSuffix.length < cap.length then
      match s1.dropWhile (fun c => c ≠ ';') with
      | _ :: r => some (cap, r)
      | [] => none
    else none
  else none

/-- Left-to-right non-overlapping scan of `re.findall`, fuelled to keep the
recursion structural (the fuel is always instantiated with the text length). -/
def findallAux : Nat → List Char → List (List Char)
  | 0, _ => []
  | fuel + 1, s =>
    match matchAt s, s with
    | some (cap, r), _ => cap :: findallAux fuel r
    | none, [] => []
    | none, _ :: t => findallAux fuel t

/-- All captures of `re.findall(r'path = ([^;]+\.swift);', t)` in scan order. -/
def findallPath (t : List Char) : List (List Char) := findallAux t.length t

/-- `XcodeProjectUpdater.extract_existing_files`: the captures with quotes
stripped.  The Python code stores them in a `set`; the model keeps the list,
of which only membership is ever used. -/
def extractExistingFiles (t : List Char) : List (List Char) :=
  (findallPath t).map stripQuotes

/-- Modelled from the spec (§4.2 / C4): the stripped captures of *every*
position of the manifest at which the textual pattern
`path = <name>.swift;` occurs, i.e. "each substring of the form
`path = <name>.<source-extension>;`", without the non-overlapping
left-to-right scan discipline of `re.findall`. -/
def specAllCaptures (t : List Char) : List (List Char) :=
  (List.range (t.length + 1)).filterMap fun i =>
    (matchAt (t.drop i)).map fun pr => stripQuotes pr.1

/-- One record of `files_to_add` (before UUID assignment). -/
structure PendingFile where
  path : List Char
  filename : List Char
  group : List Char
deriving DecidableEq

/-- `str(relative_path)`: the path segments joined with `/`. -/
def joinSlash : List (List Char) → List Char
  | [] => []
  | [p] => p
  | p :: ps => p ++ '/' :: joinSlash ps

/-- The fixed default group for files directly under the scan root. -/
def defaultGroup : List Char := "VoiceControl".toList

/-- `XcodeProjectUpdater.find_new_swift_files`: the source tree is given as
the list of relative paths (as segment lists) produced by
`Path("VoiceControl").rglob("*.swift")`, in traversal order.  A file whose
base name is already known is skipped; `existing_files` is *not* extended
during the loop, exactly as in the source. -/
def findNewSwiftFiles (tree : List (List (List Char)))
    (existing : List (List Char)) : List PendingFile :=
  tree.filterMap fun parts =>
    if parts.getLastD [] ∈ existing then none
    else some
      { path := joinSlash parts
        filename := parts.getLastD []
        group := if 1 < parts.length then parts.headD [] else defaultGroup }

/-- Hex digit character for a value `0 ≤ n < 16` (lowercase, as `uuid4().hex`). -/
def hexChar (n : Nat) : Char :=
  if n < 10 then Char.ofNat (48 + n) else Char.ofNat (87 + n)

/-- The 32 lowercase hex digits of a 128-bit value, most significant first. -/
def hex32 (v : Nat) : List Char :=
  (List.range 32).map fun i => hexChar (v / 16 ^ (31 - i) % 16)

/-- `XcodeProjectUpdater.generate_uuid` applied to the random 128-bit value
`v` drawn by `uuid.uuid4()`: `uuid4().hex[:24].upper()`. -/
def generateUuid (v : Nat) : List Char :=
  ((hex32 v).take 24).map Char.toUpper

/-- A pending file enriched with its two generated identifier tokens. -/
structure RefFile where
  pf : PendingFile
  fileRef : List Char
  buildRef : List Char
deriving DecidableEq

/-- The UUID-assignment loop of `update_project` (lines 81-83): for each file,
first `file_ref` then `build_ref` is generated; `σ` is the stream of random
128-bit values consumed by successive `uuid.uuid4()` calls. -/
def assignRefs (σ : Nat → Nat) : Nat → List PendingFile → List RefFile
  | _, [] => []
  | i, f :: fs =>
    { pf := f, fileRef := generateUuid (σ i), buildRef := generateUuid (σ (i + 1)) }
      :: assignRefs σ (i + 2) fs

/-- `'\n'.join(entries)`. -/
def joinNL : List (List Char) → List Char
  | [] => []
  | [x] => x
  | x :: xs => x ++ '\n' :: joinNL xs

def tab2 : List Char := ['\t', '\t']

def tab4 : List Char := ['\t', '\t', '\t', '\t']

def cmtOpen : List Char := " /* ".toList

def beSegB : List Char := " in Sources */ = \x7bisa = PBXBuildFile; fileRef = ".toList

def beSegD : List Char := " */; \x7d;".toList

/-- One PBXBuildFile entry line (source line 96). -/
def buildEntryLine (r : RefFile) : List Char :=
  tab2 ++ r.buildRef ++ cmtOpen ++ r.pf.filename ++ beSegB ++ r.fileRef
    ++ cmtOpen ++ r.pf.filename ++ beSegD

def frSegB : List Char :=
  " */ = \x7bisa = PBXFileReference; lastKnownFileType = sourcecode.swift; path = ".toList

def frSegC : List Char := "; sourceTree = \"<group>\"; \x7d;".toList

/-- One PBXFileReference entry line (source line 102). -/
def fileRefLine (r : RefFile) : List Char :=
  tab2 ++ r.fileRef ++ cmtOpen ++ r.pf.filename ++ frSegB ++ r.pf.filename ++ frSegC

def srcSegB : List Char := " in Sources */,".toList

/-- One Sources-build-phase membership line (source line 131). -/
def sourcesLine (r : RefFile) : List Char :=
  tab4 ++ r.buildRef ++ cmtOpen ++ r.pf.filename ++ srcSegB

def grpSegB : List Char := " */,".toList

/-- One group-membership line (source line 158). -/
def groupLine (r : RefFile) : List Char :=
  tab4 ++ r.fileRef ++ cmtOpen ++ r.pf.filename ++ grpSegB

/-- Splice `new` into `t` at position `pos` (Python slice concatenation). -/
def insertAt (pos : Nat) (new t : List Char) : List Char :=
  t.take pos ++ new ++ t.drop pos

/-- `re.search` for a literal pattern: index of the first occurrence. -/
def findSub (pat : List Char) : List Char → Option Nat
  | [] => if pat.isPrefixOf ([] : List Char) then some 0 else none
  | c :: t =>
    if pat.isPrefixOf (c :: t) then some 0 else (findSub pat t).map (· + 1)

def endBuildMarker : List Char := "/* End PBXBuildFile section */".toList

def endFileRefMarker : List Char := "/* End PBXFileReference section */".toList

/-- Backtracking choice of the greedy `[^}]+` part: the largest split point
`k` (at most the length of the maximal `}`-free run, tried from above) at
which the literal `lit` follows and is itself followed by at least one
non-`)` character (the final `[^)]+` must be nonempty). -/
def bestSplit (lit u : List Char) : Nat → Option Nat
  | 0 => none
  | k + 1 =>
    if lit.isPrefixOf (u.drop (k + 1)) ∧
        0 < ((u.drop (k + 1 + lit.length)).takeWhile (fun c => c ≠ ')')).length
    then some (k + 1)
    else bestSplit lit u k

/-- Length of a match of `hd [^}]+ lit [^)]+` at the head of `s` (if any);
the final greedy `[^)]+` extends to the maximal non-`)` run. -/
def blockMatchLen (hd lit : List Char) (s : List Char) : Option Nat :=
  if hd.isPrefixOf s then
    let u := s.drop hd.length
    match bestSplit lit u ((u.takeWhile (fun c => c ≠ rbrace)).length) with
    | some k =>
      some (hd.length + k + lit.length
        + ((u.drop (k + lit.length)).takeWhile (fun c => c ≠ ')')).length)
    | none => none
  else none

/-- `re.search` for a pattern given by a head-matcher returning the match
length: end position (`match.end()`) of the leftmost match. -/
def searchEnd (f : List Char → Option Nat) : List Char → Option Nat
  | [] => f []
  | c :: t =>
    match f (c :: t) with
    | some r => some r
    | none => (searchEnd f t).map (· + 1)

def sourcesHead : List Char := "/* Sources */ = \x7b".toList

def filesOpen : List Char := "files = (".toList

/-- The sources-build-phase pattern of source line 125. -/
def sourcesMatchLen (s : List Char) : Option Nat :=
  blockMatchLen sourcesHead filesOpen s

def childrenOpen : List Char := "children = (".toList

/-- A character that Python `re` does not treat specially in a pattern:
everything except `. ^ $ * + ? { } [ ] \ | ( )` is matched literally. -/
def regexLiteralChar (c : Char) : Bool :=
  !(c == '.' || c == '^' || c == '$' || c == '*' || c == '+' || c == '?' ||
    c == lbrace || c == rbrace || c == '[' || c == ']' || c == '\\' ||
    c == '|' || c == '(' || c == ')')

/-- A group name the interpolated regex of source line 152 matches literally:
it contains no `re` metacharacter. -/
def regexLiteral (g : List Char) : Bool := g.all regexLiteralChar

/-- The per-group pattern of source line 152: the group name is interpolated
into `rf'(path = {g};[^}]+children = \([^)]+)'` and the result is compiled
as a regex.  For a group name free of `re` metacharacters (`regexLiteral`),
the compiled pattern matches the name literally and its semantics is exactly
this function; `addFilesToGroup` consults it only in that case. -/
def groupMatchLen (g : List Char) (s : List Char) : Option Nat :=
  blockMatchLen (pathEq ++ g ++ [';']) childrenOpen s

/-- `XcodeProjectUpdater.add_files_to_group`.  The early return on an empty
per-group file list happens before the pattern is compiled, exactly as in the
source (lines 147-149 precede the `re.search` of line 153).  When the group
name contains an `re` metacharacter, the interpolated pattern is not the
literal one — compilation can even raise `re.error` (e.g. for a name `(`),
an uncaught exception that aborts the run before any write; the model
returns `none` for every such metacharacter name and claims nothing about
those runs. -/
def addFilesToGroup (files : List RefFile) (g : List Char)
    (content : List Char) : Option (List Char) :=
  let groupFiles := files.filter fun f => f.pf.group = g
  if groupFiles = [] then some content
  else if regexLiteral g then
    some (match searchEnd (groupMatchLen g) content with
      | some pos => insertAt pos ('\n' :: joinNL (groupFiles.map groupLine)) content
      | none => content)
  else none

/-- The `for group_name in set(...)` loop of source lines 142-143: each group
insertion feeds the next; an exception escaping `add_files_to_group` aborts
the loop (and the run). -/
def foldGroups (files : List RefFile) :
    List (List Char) → List Char → Option (List Char)
  | [], c => some c
  | g :: gs, c =>
    match addFilesToGroup files g c with
    | some c' => foldGroups files gs c'
    | none => none

/-- `XcodeProjectUpdater.update_project` as a function of the manifest text
and pending files.  `none` models an uncaught exception: the `AttributeError`
raised when the re-search of the file-reference marker (source line 114)
fails after the first insertion, or the group step reaching a group name with
an `re` metacharacter (whose interpolated pattern can raise `re.error` and is
otherwise unmodelled, see `addFilesToGroup`); every other path returns the
final in-memory text. -/
def updateProject (σ : Nat → Nat) (content : List Char)
    (files : List PendingFile) : Option (List Char) :=
  if files = [] then some content
  else
    let rf := assignRefs σ 0 files
    match findSub endBuildMarker content, findSub endFileRefMarker content with
    | some p1, some _ =>
      let c1 := insertAt p1 (joinNL (rf.map buildEntryLine) ++ ['\n']) content
      match findSub endFileRefMarker c1 with
      | none => none
      | some p2 =>
        let c2 := insertAt p2 (joinNL (rf.map fileRefLine) ++ ['\n']) c1
        let c3 :=
          match searchEnd sourcesMatchLen c2 with
          | some pos => insertAt pos ('\n' :: joinNL (rf.map sourcesLine)) c2
          | none => c2
        foldGroups rf ((rf.map fun r => r.pf.group).dedup) c3
    | _, _ => some content

/-- Observable events of one invocation, in order. -/
inductive RunEvent where
  | readProject
  | printedError
  | printedNoNew
  | generatedIds
  | wroteProject
  | printedSummary
  | crashed
deriving DecidableEq

/-- `XcodeProjectUpdater.run`: the event trace and the resulting on-disk
manifest text.  When nothing is pending, neither identifier generation nor a
write happens; otherwise `update_project` runs (generating identifiers before
looking for anchors) and `write_project` writes the in-memory text back —
also when the anchor check made `update_project` a no-op.  When
`update_project` is `none` (an exception escapes — line 114 or the group
step, see `updateProject` — before `write_project` is reached) the disk keeps
its prior content; metacharacter group names that would *not* raise are also
mapped to this branch and are simply outside the model's claims. -/
def runTrace (σ : Nat → Nat) (tree : List (List (List Char)))
    (content : List Char) : List RunEvent × List Char :=
  let pending := findNewSwiftFiles tree (extractExistingFiles content)
  if pending = [] then ([.readProject, .printedNoNew], content)
  else
    match updateProject σ content pending with
    | some c =>
      ([.readProject, .generatedIds, .wroteProject, .printedSummary], c)
    | none => ([.readProject, .generatedIds, .crashed], content)

/-- The on-disk manifest text after one run. -/
def runDisk (σ : Nat → Nat) (tree : List (List (List Char)))
    (content : List Char) : List Char :=
  (runTrace σ tree content).2

/-- The state `main` observes: whether `VoiceControl.xcodeproj` exists in the
working directory, the manifest text, and the scanned source tree. -/
structure SysState where
  projExists : Bool
  manifest : List Char
  tree : List (List (List Char))

/-- `main`: the precondition gate, then the run. -/
def mainTrace (σ : Nat → Nat) (s : SysState) : List RunEvent × List Char :=
  if s.projExists then runTrace σ s.tree s.manifest
  else ([.printedError], s.manifest)

/-! ## Basic list lemmas -/

theorem isPrefixOf_eq (p : List Char) : ∀ s : List Char,
    p.isPrefixOf s = true ↔ ∃ t, s = p ++ t := by
  induction p with
  | nil => intro s; simp [List.isPrefixOf]
  | cons c p' ih =>
    intro s
    cases s with
    | nil => simp [List.isPrefixOf]
    | cons d s' =>
      simp only [List.isPrefixOf, Bool.and_eq_true, beq_iff_eq, ih s']
      constructor
      · rintro ⟨rfl, t, rfl⟩; exact ⟨t, rfl⟩
      · rintro ⟨t, h⟩
        injection h with h1 h2
        exact ⟨h1.symm, t, h2⟩

theorem isPrefixOf_self_append (p t : List Char) : p.isPrefixOf (p ++ t) = true :=
  (isPrefixOf_eq p (p ++ t)).2 ⟨t, rfl⟩

theorem takeWhile_middle (p : Char → Bool) (l : List Char)
    (hl : ∀ c ∈ l, p c = true) (c0 : Char) (hc : p c0 = false) (r : List Char) :
    (l ++ c0 :: r).takeWhile p = l ∧ (l ++ c0 :: r).dropWhile p = c0 :: r := by
  induction l with
  | nil => simp [List.takeWhile_cons, List.dropWhile_cons, hc]
  | cons a l ih =>
    have ha : p a = true := hl a (List.mem_cons_self a l)
    have ih' := ih fun c hc' => hl c (List.mem_cons_of_mem a hc')
    simp [List.takeWhile_cons, List.dropWhile_cons, ha, ih'.1, ih'.2]

theorem take_drop_append_le (n : Nat) (x y : List Char) (h : n ≤ x.length) :
    (x ++ y).take n = x.take n ∧ (x ++ y).drop n = x.drop n ++ y := by
  induction n generalizing x with
  | zero => simp
  | succ n ih =>
    cases x with
    | nil => simp at h
    | cons a x =>
      have h' : n ≤ x.length := Nat.le_of_succ_le_succ h
      simp [List.take_succ_cons, List.drop_succ_cons, (ih x h').1, (ih x h').2]

theorem take_drop_append_ge (n : Nat) (x y : List Char) (h : x.length ≤ n) :
    (x ++ y).take n = x ++ y.take (n - x.length) ∧
      (x ++ y).drop n = y.drop (n - x.length) := by
  induction x generalizing n with
  | nil => simp
  | cons a x ih =>
    cases n with
    | zero => simp at h
    | succ n =>
      have h' : x.length ≤ n := Nat.le_of_succ_le_succ h
      simp [List.take_succ_cons, List.drop_succ_cons, (ih n h').1, (ih n h').2,
        Nat.succ_sub_succ]

theorem takeWhile_stop (p : Char → Bool) : ∀ l : List Char,
    (l.takeWhile p).length < l.length →
      ∃ c, l.get? (l.takeWhile p).length = some c ∧ p c = false := by
  intro l
  induction l with
  | nil => intro h; simp at h
  | cons a l ih =>
    intro h
    by_cases ha : p a = true
    · rw [List.takeWhile_cons_of_pos ha] at h ⊢
      obtain ⟨c, hc, hpc⟩ := ih (Nat.lt_of_succ_lt_succ h)
      exact ⟨c, by simpa using hc, hpc⟩
    · rw [List.takeWhile_cons_of_neg ha]
      exact ⟨a, rfl, Bool.eq_false_iff.2 ha⟩

theorem get?_drop_eq (l : List Char) (n m : Nat) :
    (l.drop n).get? m = l.get? (n + m) := by
  simp [List.get?_eq_getElem?, List.getElem?_drop]

/-! ## `matchAt` and `findall` lemmas -/

theorem pathEq_length : pathEq.length = 7 := rfl

theorem swiftSuffix_length : swiftSuffix.length = 6 := rfl

theorem pathEq_ne_semi : ∀ c ∈ pathEq, ¬ c = ';' := by decide

theorem matchAt_nil : matchAt [] = none := rfl

theorem endsWith_append (x sfx : List Char) : endsWith sfx (x ++ sfx) = true := by
  have hlen : (x ++ sfx).length - sfx.length = x.length := by
    simp [List.length_append]
  simp [endsWith, hlen, List.drop_left]

theorem matchAt_build (fn : List Char) (hns : ∀ c ∈ fn, ¬ c = ';')
    (hsw : endsWith swiftSuffix fn = true) (hlen : 6 < fn.length) (b : List Char) :
    matchAt (pathEq ++ (fn ++ (';' :: b))) = some (fn, b) := by
  have hpre := isPrefixOf_self_append pathEq (fn ++ (';' :: b))
  have hdrop : (pathEq ++ (fn ++ (';' :: b))).drop pathEq.length = fn ++ (';' :: b) :=
    List.drop_left pathEq _
  have htw := takeWhile_middle (fun c => decide (¬ c = ';')) fn
    (fun c hc => by simpa using hns c hc) ';' (by simp) b
  rw [matchAt, if_pos hpre]
  simp only [hdrop]
  have hcap : (fn ++ ';' :: b).takeWhile (fun c => decide (¬ c = ';')) = fn := htw.1
  have hdw : (fn ++ ';' :: b).dropWhile (fun c => decide (¬ c = ';')) = ';' :: b := htw.2
  simp only [ne_eq, hcap, hdw]
  rw [if_pos ⟨hsw, by rw [swiftSuffix_length]; exact hlen⟩]

theorem matchAt_decomp (s cap r : List Char) (h : matchAt s = some (cap, r)) :
    s = pathEq ++ (cap ++ (';' :: r)) ∧ (∀ c ∈ cap, ¬ c = ';') ∧
      endsWith swiftSuffix cap = true ∧ 6 < cap.length := by
  rw [matchAt] at h
  by_cases hpre : pathEq.isPrefixOf s = true
  · rw [if_pos hpre] at h
    obtain ⟨t, rfl⟩ := (isPrefixOf_eq pathEq s).1 hpre
    rw [List.drop_left] at h
    set p : Char → Bool := fun c => decide (¬ c = ';') with hp
    by_cases hcond : endsWith swiftSuffix (t.takeWhile p) = true ∧
        swiftSuffix.length < (t.takeWhile p).length
    · rw [if_pos hcond] at h
      rcases hdw : t.dropWhile p with _ | ⟨c0, r0⟩
      · rw [hdw] at h; exact absurd h (by simp)
      · rw [hdw] at h
        injection h with h'
        injection h' with hcap hr
        have hc0 : p c0 = false := by
          have := List.head_dropWhile_not p t (by simp [hdw])
          simpa [hdw] using this
        have hc0' : c0 = ';' := by simpa [hp] using hc0
        have ht : t = cap ++ (';' :: r) := by
          have := List.takeWhile_append_dropWhile (p := p) (l := t)
          rw [hdw, hcap, hc0', hr] at this
          exact this.symm
        subst ht
        refine ⟨rfl, ?_, ?_, ?_⟩
        · intro c hc
          have : p c = true := List.mem_takeWhile_imp (by rw [hcap]; exact hc)
          simpa [hp] using this
        · rw [← hcap]; exact hcond.1
        · rw [← hcap]; simpa [swiftSuffix_length] using hcond.2
    · rw [if_neg hcond] at h; exact absurd h (by simp)
  · rw [if_neg hpre] at h; exact absurd h (by simp)

theorem matchAt_length (s cap r : List Char) (h : matchAt s = some (cap, r)) :
    s.length = cap.length + r.length + 8 := by
  obtain ⟨hdec, -, -, -⟩ := matchAt_decomp s cap r h
  subst hdec
  simp [List.length_append, pathEq_length]
  omega

theorem matchAt_cons_ne (c : Char) (h : ¬ c = 'p') (xs : List Char) :
    matchAt (c :: xs) = none := by
  have : pathEq.isPrefixOf (c :: xs) = false := by
    by_contra hne
    have hpre : pathEq.isPrefixOf (c :: xs) = true := by
      cases hb : pathEq.isPrefixOf (c :: xs) with
      | true => rfl
      | false => exact absurd hb hne
    obtain ⟨t, ht⟩ := (isPrefixOf_eq pathEq (c :: xs)).1 hpre
    have : c = 'p' := by
      have := congrArg (fun l => l.headD ' ') ht
      simpa [pathEq] using this
    exact h this
  rw [matchAt, this]
  simp

theorem findallAux_head (fuel : Nat) (s cap r : List Char)
    (h : matchAt s = some (cap, r)) (hle : s.length ≤ fuel) :
    cap ∈ findallAux fuel s := by
  cases fuel with
  | zero =>
    have := matchAt_length s cap r h
    omega
  | succ fuel =>
    simp only [findallAux, h]
    exact List.mem_cons_self _ _

/-- The guarded context in which a file-reference entry carries its `path`
attribute: `; path = <fn>;` (the leading `;` closes the previous attribute
and blocks any `[^;]+` run from further left). -/
def nameSpan (fn : List Char) : List Char :=
  ';' :: ' ' :: (pathEq ++ (fn ++ [';']))

theorem nameSpan_length (fn : List Char) : (nameSpan fn).length = fn.length + 10 := by
  simp [nameSpan, List.length_append, pathEq_length]
  omega

theorem findall_mem_front (fn : List Char) (hns : ∀ c ∈ fn, ¬ c = ';')
    (hsw : endsWith swiftSuffix fn = true) (hlen : 6 < fn.length) :
    ∀ fuel (b : List Char), (pathEq ++ (fn ++ (';' :: b))).length < fuel →
      fn ∈ findallAux fuel (' ' :: (pathEq ++ (fn ++ (';' :: b)))) := by
  intro fuel b h
  cases fuel with
  | zero => omega
  | succ fuel =>
    have hsp : matchAt (' ' :: (pathEq ++ (fn ++ (';' :: b)))) = none :=
      matchAt_cons_ne ' ' (by decide) _
    simp only [findallAux, hsp]
    exact findallAux_head fuel _ fn b (matchAt_build fn hns hsw hlen b) (by omega)

theorem findall_mem_of_span (fn : List Char) (hns : ∀ c ∈ fn, ¬ c = ';')
    (hsw : endsWith swiftSuffix fn = true) (hlen : 6 < fn.length) :
    ∀ fuel (t a b : List Char), t.length ≤ fuel → t = a ++ (nameSpan fn ++ b) →
      fn ∈ findallAux fuel t := by
  intro fuel
  induction fuel with
  | zero =>
    intro t a b hle ht
    subst ht
    simp [List.length_append, nameSpan_length] at hle
  | succ fuel ih =>
    intro t a b hle ht
    have hlent : (fn.length + 10) ≤ t.length := by
      subst ht; simp [List.length_append, nameSpan_length]; omega
    cases hm : matchAt t with
    | some pr =>
      obtain ⟨cap, r⟩ := pr
      obtain ⟨hdec, hcapns, -, -⟩ := matchAt_decomp t cap r hm
      have hrlen : r.length + 8 ≤ fuel + 1 := by
        have := matchAt_length t cap r hm; omega
      have hrw : (pathEq ++ cap) ++ (';' :: r) = a ++ (';' :: ((' ' :: (pathEq ++ (fn ++ [';']))) ++ b)) := by
        rw [← List.append_assoc] at hdec
        rw [← hdec, ht, nameSpan]
        simp [List.append_assoc]
      have hmem : fn ∈ findallAux (fuel + 1) t := by
        simp only [findallAux, hm]
        rcases List.append_eq_append_iff.1 hrw.symm with ⟨k, hc, hb⟩ | ⟨k, ha, hd⟩
        · -- pathEq ++ cap = a ++ k,  k ++ ';' :: r = ';' :: (w' ++ b)
          cases k with
          | nil =>
            simp only [List.nil_append] at hb
            injection hb with hb0 hb'
            have hr : r = ' ' :: (pathEq ++ (fn ++ (';' :: b))) := by
              rw [← hb']; simp [List.cons_append, List.append_assoc]
            rw [hr]
            exact List.mem_cons_of_mem _
              (findall_mem_front fn hns hsw hlen fuel b (by
                have : r.length = (pathEq ++ (fn ++ (';' :: b))).length + 1 := by
                  rw [hr]; simp
                omega))
          | cons c0 k' =>
            exfalso
            injection hb with hc0 hbtail
            have hsemi : (';' : Char) ∈ pathEq ++ cap := by
              rw [hc, ← hc0]
              exact List.mem_append_right a (List.mem_cons_self _ _)
            rcases List.mem_append.1 hsemi with hsemi | hsemi
            · exact pathEq_ne_semi ';' hsemi rfl
            · exact hcapns ';' hsemi rfl
        · -- a = (pathEq ++ cap) ++ k,  ';' :: r = k ++ (';' :: (w' ++ b))
          cases k with
          | nil =>
            simp only [List.nil_append] at hd
            injection hd with hd0 hd'
            have hr : r = ' ' :: (pathEq ++ (fn ++ (';' :: b))) := by
              rw [hd']; simp [List.cons_append, List.append_assoc]
            rw [hr]
            exact List.mem_cons_of_mem _
              (findall_mem_front fn hns hsw hlen fuel b (by
                have : r.length = (pathEq ++ (fn ++ (';' :: b))).length + 1 := by
                  rw [hr]; simp
                omega))
          | cons c0 k' =>
            injection hd with hd0 hd'
            have hr : r = k' ++ (nameSpan fn ++ b) := by
              rw [hd']; simp [nameSpan, List.cons_append, List.append_assoc]
            exact List.mem_cons_of_mem _ (ih r k' b (by omega) hr)
      exact hmem
    | none =>
      cases t with
      | nil => simp at hlent
      | cons c0 t' =>
        simp only [findallAux, hm]
        cases a with
        | nil =>
          simp only [List.nil_append, nameSpan] at ht
          injection ht with ht0 ht'
          have ht'' : t' = ' ' :: (pathEq ++ (fn ++ (';' :: b))) := by
            rw [ht']; simp [List.append_assoc]
          rw [ht'']
          refine findall_mem_front fn hns hsw hlen fuel b ?_
          have : t'.length = (pathEq ++ (fn ++ (';' :: b))).length + 1 := by
            rw [ht'']; simp
          simp only [List.length_cons] at hle
          omega
        | cons a0 a' =>
          injection ht with ht0 ht'
          exact ih t' a' b (by simpa using Nat.le_of_succ_le_succ (by simpa using hle)) ht'

theorem findallAux_sub_positions : ∀ fuel (s : List Char), s.length ≤ fuel →
    ∀ cap ∈ findallAux fuel s,
      ∃ j r, j ≤ s.length ∧ matchAt (s.drop j) = some (cap, r) := by
  intro fuel
  induction fuel with
  | zero => intro s hle cap hcap; simp [findallAux] at hcap
  | succ fuel ih =>
    intro s hle cap hcap
    cases hm : matchAt s with
    | some pr =>
      obtain ⟨c0, r0⟩ := pr
      simp only [findallAux, hm] at hcap
      rcases List.mem_cons.1 hcap with rfl | hcap'
      · exact ⟨0, r0, Nat.zero_le _, by simpa using hm⟩
      · obtain ⟨hdec, -, -, -⟩ := matchAt_decomp s c0 r0 hm
        have hlen := matchAt_length s c0 r0 hm
        have hr0 : s.drop (pathEq.length + c0.length + 1) = r0 := by
          have : s = (pathEq ++ (c0 ++ [';'])) ++ r0 := by
            rw [hdec]; simp [List.append_assoc]
          rw [this]
          refine List.drop_left' ?_
          simp [List.length_append, pathEq_length]
          omega
        obtain ⟨j, r, hj, hmj⟩ := ih r0 (by omega) cap hcap'
        have hpe := pathEq_length
        refine ⟨pathEq.length + c0.length + 1 + j, r, by omega, ?_⟩
        rw [← hr0, List.drop_drop] at hmj
        exact hmj
    | none =>
      cases s with
      | nil => simp [findallAux, hm] at hcap
      | cons c0 t =>
        simp only [findallAux, hm] at hcap
        obtain ⟨j, r, hj, hmj⟩ := ih t (by simpa using Nat.le_of_succ_le_succ hle) cap hcap
        exact ⟨j + 1, r, by simpa using Nat.succ_le_succ hj, by simpa using hmj⟩

/-- Every name the extractor collects arises from a positional match of the
pattern somewhere in the text. -/
theorem extract_sub_specAll (t x : List Char) (hx : x ∈ extractExistingFiles t) :
    x ∈ specAllCaptures t := by
  obtain ⟨cap, hcap, rfl⟩ := List.mem_map.1 hx
  obtain ⟨j, r, hj, hmj⟩ :=
    findallAux_sub_positions t.length t (Nat.le_refl _) cap hcap
  refine List.mem_filterMap.2 ⟨j, List.mem_range.2 (by omega), ?_⟩
  rw [hmj]
  rfl

theorem stripQuotes_eq_self (l : List Char) (h : ∀ c ∈ l, ¬ c = dq) :
    stripQuotes l = l := by
  have h1 : l.dropWhile (fun c => c = dq) = l := by
    cases l with
    | nil => rfl
    | cons c cs =>
      rw [List.dropWhile_cons_of_neg]
      simp only [decide_eq_true_eq]
      exact h c (List.mem_cons_self _ _)
  rw [stripQuotes, h1]
  have h2 : l.reverse.dropWhile (fun c => c = dq) = l.reverse := by
    cases hrev : l.reverse with
    | nil => rfl
    | cons c cs =>
      rw [List.dropWhile_cons_of_neg]
      simp only [decide_eq_true_eq]
      refine h c ?_
      rw [← List.mem_reverse, hrev]
      exact List.mem_cons_self _ _
  rw [h2, List.reverse_reverse]

/-- Main extraction corollary: a clean `.swift` name standing in a guarded
`; path = <fn>;` context is collected by the extractor. -/
theorem mem_extract_of_span (fn t a b : List Char)
    (hns : ∀ c ∈ fn, ¬ c = ';') (hdq : ∀ c ∈ fn, ¬ c = dq)
    (hsw : endsWith swiftSuffix fn = true) (hlen : 6 < fn.length)
    (ht : t = a ++ (nameSpan fn ++ b)) :
    fn ∈ extractExistingFiles t := by
  have hmem : fn ∈ findallPath t :=
    findall_mem_of_span fn hns hsw hlen t.length t a b (Nat.le_refl _) ht
  have : stripQuotes fn = fn := stripQuotes_eq_self fn hdq
  rw [extractExistingFiles]
  exact List.mem_map.2 ⟨fn, hmem, this⟩

/-! ## Search and insertion lemmas -/

theorem findSub_sound (pat : List Char) : ∀ (t : List Char) (p : Nat),
    findSub pat t = some p → pat.isPrefixOf (t.drop p) = true ∧ p ≤ t.length := by
  intro t
  induction t with
  | nil =>
    intro p h
    rw [findSub] at h
    by_cases hpre : pat.isPrefixOf ([] : List Char) = true
    · rw [if_pos hpre] at h
      injection h with h'
      subst h'
      exact ⟨hpre, Nat.le_refl _⟩
    · rw [if_neg hpre] at h; exact absurd h (by simp)
  | cons c t ih =>
    intro p h
    rw [findSub] at h
    by_cases hpre : pat.isPrefixOf (c :: t) = true
    · rw [if_pos hpre] at h
      injection h with h'
      subst h'
      exact ⟨by simpa using hpre, Nat.zero_le _⟩
    · rw [if_neg hpre] at h
      obtain ⟨q, hq, rfl⟩ := Option.map_eq_some'.1 h
      obtain ⟨h1, h2⟩ := ih q hq
      exact ⟨by simpa using h1, by simpa using Nat.succ_le_succ h2⟩

theorem findSub_isSome_of (pat : List Char) : ∀ (t : List Char) (i : Nat),
    pat.isPrefixOf (t.drop i) = true → (findSub pat t).isSome = true := by
  intro t
  induction t with
  | nil =>
    intro i h
    rw [List.drop_nil] at h
    simp [findSub, h]
  | cons c t ih =>
    intro i h
    rw [findSub]
    by_cases hpre : pat.isPrefixOf (c :: t) = true
    · simp [hpre]
    · rw [if_neg hpre]
      cases i with
      | zero => exact absurd (by simpa using h) hpre
      | succ j =>
        have := ih j (by simpa using h)
        simpa [Option.isSome_map] using this

theorem searchEnd_sound (f : List Char → Option Nat) : ∀ (t : List Char) (p : Nat),
    searchEnd f t = some p →
      ∃ i r, i ≤ t.length ∧ f (t.drop i) = some r ∧ p = i + r := by
  intro t
  induction t with
  | nil =>
    intro p h
    rw [searchEnd] at h
    exact ⟨0, p, Nat.le_refl _, by simpa using h, by omega⟩
  | cons c t ih =>
    intro p h
    rw [searchEnd] at h
    cases hf : f (c :: t) with
    | some r =>
      rw [hf] at h
      injection h with h'
      subst h'
      exact ⟨0, r, Nat.zero_le _, by simpa using hf, by omega⟩
    | none =>
      rw [hf] at h
      obtain ⟨q, hq, rfl⟩ := Option.map_eq_some'.1 h
      obtain ⟨i, r, hi, hfr, rfl⟩ := ih q hq
      exact ⟨i + 1, r, by simpa using Nat.succ_le_succ hi, by simpa using hfr, by omega⟩

theorem bestSplit_sound (lit u : List Char) : ∀ (n k : Nat),
    bestSplit lit u n = some k →
      1 ≤ k ∧ lit.isPrefixOf (u.drop k) = true ∧
        0 < ((u.drop (k + lit.length)).takeWhile (fun c => c ≠ ')')).length := by
  intro n
  induction n with
  | zero => intro k h; exact absurd h (by simp [bestSplit])
  | succ n ih =>
    intro k h
    rw [bestSplit] at h
    by_cases hcond : lit.isPrefixOf (u.drop (n + 1)) = true ∧
        0 < ((u.drop (n + 1 + lit.length)).takeWhile (fun c => c ≠ ')')).length
    · rw [if_pos hcond] at h
      injection h with h'
      subst h'
      exact ⟨Nat.succ_le_succ (Nat.zero_le _), hcond.1, by
        have := hcond.2
        simpa [Nat.add_comm, Nat.add_assoc, Nat.add_left_comm] using this⟩
    · rw [if_neg hcond] at h
      exact ih k h

theorem isPrefixOf_length_le (p s : List Char) (h : p.isPrefixOf s = true) :
    p.length ≤ s.length := by
  obtain ⟨t, rfl⟩ := (isPrefixOf_eq p s).1 h
  simp

theorem takeWhile_len_le (p : Char → Bool) : ∀ l : List Char,
    (l.takeWhile p).length ≤ l.length := by
  intro l
  induction l with
  | nil => simp
  | cons c cs ih =>
    rw [List.takeWhile_cons]
    by_cases hc : p c = true
    · simp only [hc, if_true, List.length_cons]
      exact Nat.succ_le_succ ih
    · simp only [hc]
      simp

theorem blockMatchLen_end (hd lit : List Char) (hlit : lit ≠ []) (s : List Char)
    (r : Nat) (h : blockMatchLen hd lit s = some r) :
    r = s.length ∨ s.get? r = some ')' := by
  rw [blockMatchLen] at h
  by_cases hpre : hd.isPrefixOf s = true
  · rw [if_pos hpre] at h
    simp only [] at h
    have hhd : hd.length ≤ s.length := isPrefixOf_length_le hd s hpre
    cases hbs : bestSplit lit (s.drop hd.length)
        (((s.drop hd.length).takeWhile (fun c => c ≠ rbrace)).length) with
    | none => rw [hbs] at h; exact absurd h (by simp)
    | some k =>
      rw [hbs] at h
      injection h with h'
      obtain ⟨hk1, hkpre, hkrun⟩ := bestSplit_sound lit (s.drop hd.length) _ k hbs
      set u := s.drop hd.length with hu
      set y := u.drop (k + lit.length) with hy
      set run := (y.takeWhile (fun c => c ≠ ')')).length with hrun
      have hklit : k + lit.length ≤ u.length := by
        have h1 : lit.length ≤ (u.drop k).length := isPrefixOf_length_le lit _ hkpre
        rw [List.length_drop] at h1
        by_cases hk : k ≤ u.length
        · omega
        · exfalso
          have : u.drop k = [] := List.drop_eq_nil_of_le (by omega)
          rw [this] at hkpre
          have := isPrefixOf_length_le lit [] hkpre
          simp at this
          exact hlit this
      have hulen : u.length = s.length - hd.length := by rw [hu, List.length_drop]
      have hylen : y.length = u.length - (k + lit.length) := by
        rw [hy, List.length_drop]
      have hrle : run ≤ y.length := by
        rw [hrun]; exact takeWhile_len_le _ y
      by_cases hcase : run < y.length
      · right
        obtain ⟨c, hc, hpc⟩ := takeWhile_stop (fun c => c ≠ ')') y (by rw [← hrun]; exact hcase)
        have hcc : c = ')' := by simpa using hpc
        have hget : y.get? run = some ')' := by rw [← hrun] at hc; rw [← hcc]; exact hc
        have hgu : u.get? (k + lit.length + run) = some ')' := by
          rw [← get?_drop_eq u (k + lit.length) run, ← hy]
          exact hget
        have hgs : s.get? (hd.length + (k + lit.length + run)) = some ')' := by
          rw [← get?_drop_eq s hd.length _, ← hu]
          exact hgu
        have : r = hd.length + (k + lit.length + run) := by omega
        rw [this]
        exact hgs
      · left
        have : run = y.length := by omega
        omega
  · rw [if_neg hpre] at h; exact absurd h (by simp)

theorem searchEnd_block_end (hd lit : List Char) (hlit : lit ≠ []) (t : List Char)
    (p : Nat) (h : searchEnd (blockMatchLen hd lit) t = some p) :
    p = t.length ∨ t.get? p = some ')' := by
  obtain ⟨i, r, hi, hfr, rfl⟩ := searchEnd_sound (blockMatchLen hd lit) t p h
  rcases blockMatchLen_end hd lit hlit (t.drop i) r hfr with hend | hget
  · left
    rw [List.length_drop] at hend
    omega
  · right
    rw [← get?_drop_eq t i r]
    exact hget

theorem insertAt_keep_span (sp t a b ins : List Char) (p : Nat)
    (ht : t = a ++ (sp ++ b)) (hp : p ≤ a.length ∨ a.length + sp.length ≤ p) :
    ∃ a2 b2, insertAt p ins t = a2 ++ (sp ++ b2) := by
  rcases hp with hp | hp
  · obtain ⟨h1, h2⟩ := take_drop_append_le p a (sp ++ b) hp
    refine ⟨a.take p ++ (ins ++ a.drop p), b, ?_⟩
    rw [insertAt, ht, h1, h2]
    simp [List.append_assoc]
  · have ht' : t = (a ++ sp) ++ b := by rw [ht, List.append_assoc]
    have hlen : (a ++ sp).length ≤ p := by simpa using hp
    obtain ⟨h1, h2⟩ := take_drop_append_ge p (a ++ sp) b hlen
    refine ⟨a, (b.take (p - (a ++ sp).length) ++ (ins ++ b.drop (p - (a ++ sp).length))), ?_⟩
    rw [insertAt, ht', h1, h2]
    simp [List.append_assoc]

theorem span_pos_excluded (sp t a b : List Char) (p : Nat)
    (ht : t = a ++ (sp ++ b)) (c : Char) (hc : t.get? p = some c) (hnotin : c ∉ sp) :
    p ≤ a.length ∨ a.length + sp.length ≤ p := by
  by_contra hcon
  push_neg at hcon
  obtain ⟨h1, h2⟩ := hcon
  have hget : t.get? p = sp.get? (p - a.length) := by
    rw [ht, List.get?_append_right (by omega)]
    rw [List.get?_append (by omega)]
  rw [hget] at hc
  exact hnotin (List.get?_mem hc)

theorem get?_of_prefixOf_cons (t : List Char) (p : Nat) (c : Char) (rest : List Char)
    (h : (c :: rest).isPrefixOf (t.drop p) = true) : t.get? p = some c := by
  obtain ⟨tl, htl⟩ := (isPrefixOf_eq (c :: rest) (t.drop p)).1 h
  have : (t.drop p).get? 0 = some c := by rw [htl]; rfl
  rw [get?_drop_eq t p 0] at this
  simpa using this

theorem insert_marker_keep_span (c0 : Char) (pat' ins sp t : List Char) (p : Nat)
    (hfs : findSub (c0 :: pat') t = some p) (hc0 : c0 ∉ sp)
    (hocc : ∃ a b, t = a ++ (sp ++ b)) :
    ∃ a b, insertAt p ins t = a ++ (sp ++ b) := by
  obtain ⟨a, b, ht⟩ := hocc
  obtain ⟨hpre, hple⟩ := findSub_sound (c0 :: pat') t p hfs
  have hget : t.get? p = some c0 := get?_of_prefixOf_cons t p c0 pat' hpre
  exact insertAt_keep_span sp t a b ins p ht
    (span_pos_excluded sp t a b p ht c0 hget hc0)

theorem insert_block_keep_span (hd lit : List Char) (hlit : lit ≠ [])
    (ins sp t : List Char) (p : Nat)
    (hse : searchEnd (blockMatchLen hd lit) t = some p)
    (hsp : (')' : Char) ∉ sp)
    (hocc : ∃ a b, t = a ++ (sp ++ b)) :
    ∃ a b, insertAt p ins t = a ++ (sp ++ b) := by
  obtain ⟨a, b, ht⟩ := hocc
  rcases searchEnd_block_end hd lit hlit t p hse with hend | hget
  · refine insertAt_keep_span sp t a b ins p ht (Or.inr ?_)
    rw [ht] at hend
    simp [List.length_append] at hend
    omega
  · exact insertAt_keep_span sp t a b ins p ht
      (span_pos_excluded sp t a b p ht ')' hget hsp)

theorem addFilesToGroup_some_keep_span (files : List RefFile) (g sp : List Char)
    (hsp : (')' : Char) ∉ sp) (content c' : List Char)
    (h : addFilesToGroup files g content = some c')
    (hocc : ∃ a b, content = a ++ (sp ++ b)) :
    ∃ a b, c' = a ++ (sp ++ b) := by
  rw [addFilesToGroup] at h
  by_cases hemp : files.filter (fun f => f.pf.group = g) = []
  · rw [if_pos hemp] at h
    injection h with h'
    subst h'
    exact hocc
  · rw [if_neg hemp] at h
    by_cases hlit : regexLiteral g = true
    · rw [if_pos hlit] at h
      injection h with h'
      subst h'
      cases hse : searchEnd (groupMatchLen g) content with
      | none => simpa [hse] using hocc
      | some pos =>
        simp only [hse]
        exact insert_block_keep_span (pathEq ++ g ++ [';']) childrenOpen
          (by decide) _ sp content pos hse hsp hocc
    · rw [if_neg hlit] at h
      exact absurd h (by simp)

theorem foldGroups_some_keep_span (files : List RefFile) (sp : List Char)
    (hsp : (')' : Char) ∉ sp) : ∀ (gs : List (List Char)) (c d : List Char),
    foldGroups files gs c = some d → (∃ a b, c = a ++ (sp ++ b)) →
      ∃ a b, d = a ++ (sp ++ b) := by
  intro gs
  induction gs with
  | nil =>
    intro c d h hocc
    rw [foldGroups] at h
    injection h with h'
    subst h'
    exact hocc
  | cons g gs ih =>
    intro c d h hocc
    rw [foldGroups] at h
    cases ha : addFilesToGroup files g c with
    | none => rw [ha] at h; exact absurd h (by simp)
    | some c1 =>
      rw [ha] at h
      exact ih c1 d h (addFilesToGroup_some_keep_span files g sp hsp c c1 ha hocc)

theorem foldGroups_total (files : List RefFile) : ∀ (gs : List (List Char)),
    (∀ g ∈ gs, regexLiteral g = true) →
      ∀ c : List Char, ∃ d, foldGroups files gs c = some d := by
  intro gs
  induction gs with
  | nil => intro _ c; exact ⟨c, rfl⟩
  | cons g gs ih =>
    intro hg c
    have hlit := hg g (List.mem_cons_self _ _)
    have hsome : ∃ c1, addFilesToGroup files g c = some c1 := by
      refine Option.isSome_iff_exists.1 ?_
      rw [addFilesToGroup]
      by_cases hemp : files.filter (fun f => f.pf.group = g) = []
      · simp [hemp]
      · simp [hemp, hlit]
    obtain ⟨c1, hc1⟩ := hsome
    obtain ⟨d, hd⟩ := ih (fun g' hg' => hg g' (List.mem_cons_of_mem _ hg')) c1
    refine ⟨d, ?_⟩
    rw [foldGroups, hc1]
    exact hd

/-! ## Helpers for the idempotence argument -/

/-- Character sanity for a scanned file name: none of the characters that
could interfere with the textual patterns of the script occur in it. -/
abbrev cleanChars (fn : List Char) : Prop :=
  ∀ c ∈ fn, ¬ c = ';' ∧ ¬ c = dq ∧ ¬ c = '/' ∧ ¬ c = ')'

/-- A well-formed scanned Swift file name: ends in `.swift`, has a nonempty
stem, and contains no pattern-interfering characters. -/
abbrev cleanSwiftName (fn : List Char) : Prop :=
  endsWith swiftSuffix fn = true ∧ 6 < fn.length ∧ cleanChars fn

theorem nameSpan_no_slash (fn : List Char) (h : cleanChars fn) :
    ('/' : Char) ∉ nameSpan fn := by
  intro hmem
  rw [nameSpan] at hmem
  rcases List.mem_cons.1 hmem with h1 | hmem
  · exact absurd h1 (by decide)
  rcases List.mem_cons.1 hmem with h1 | hmem
  · exact absurd h1 (by decide)
  rcases List.mem_append.1 hmem with h1 | hmem
  · exact absurd h1 (by decide)
  rcases List.mem_append.1 hmem with h1 | hmem
  · exact (h '/' h1).2.2.1 rfl
  · exact absurd hmem (by decide)

theorem nameSpan_no_rparen (fn : List Char) (h : cleanChars fn) :
    (')' : Char) ∉ nameSpan fn := by
  intro hmem
  rw [nameSpan] at hmem
  rcases List.mem_cons.1 hmem with h1 | hmem
  · exact absurd h1 (by decide)
  rcases List.mem_cons.1 hmem with h1 | hmem
  · exact absurd h1 (by decide)
  rcases List.mem_append.1 hmem with h1 | hmem
  · exact absurd h1 (by decide)
  rcases List.mem_append.1 hmem with h1 | hmem
  · exact (h ')' h1).2.2.2 rfl
  · exact absurd hmem (by decide)

theorem assignRefs_map_pf (σ : Nat → Nat) : ∀ (i : Nat) (files : List PendingFile),
    (assignRefs σ i files).map RefFile.pf = files := by
  intro i files
  induction files generalizing i with
  | nil => rfl
  | cons f fs ih => simp [assignRefs, ih]

theorem mem_assignRefs_of (σ : Nat → Nat) (i : Nat) (files : List PendingFile)
    (f : PendingFile) (hf : f ∈ files) :
    ∃ r ∈ assignRefs σ i files, r.pf = f := by
  have : f ∈ (assignRefs σ i files).map RefFile.pf := by
    rw [assignRefs_map_pf]; exact hf
  obtain ⟨r, hr, hrf⟩ := List.mem_map.1 this
  exact ⟨r, hr, hrf⟩

theorem joinNL_mem_sub (x : List Char) : ∀ l : List (List Char), x ∈ l →
    ∃ u v, joinNL l = u ++ (x ++ v) := by
  intro l
  induction l with
  | nil => intro h; simp at h
  | cons y ys ih =>
    intro h
    rcases List.mem_cons.1 h with rfl | h'
    · cases ys with
      | nil => exact ⟨[], [], by simp [joinNL]⟩
      | cons z zs => exact ⟨[], '\n' :: joinNL (z :: zs), by simp [joinNL]⟩
    · cases ys with
      | nil => simp at h'
      | cons z zs =>
        obtain ⟨u, v, huv⟩ := ih h'
        exact ⟨y ++ '\n' :: u, v, by
          simp only [joinNL, huv]
          simp [List.append_assoc]⟩

def frSegB0 : List Char :=
  " */ = \x7bisa = PBXFileReference; lastKnownFileType = sourcecode.swift".toList

def frSegC0 : List Char := " sourceTree = \"<group>\"; \x7d;".toList

theorem frSegB_decomp : frSegB = frSegB0 ++ (';' :: ' ' :: pathEq) := by decide

theorem frSegC_decomp : frSegC = ';' :: frSegC0 := by decide

theorem fileRefLine_span (r : RefFile) :
    ∃ u v, fileRefLine r = u ++ (nameSpan r.pf.filename ++ v) := by
  refine ⟨tab2 ++ r.fileRef ++ cmtOpen ++ r.pf.filename ++ frSegB0, frSegC0, ?_⟩
  rw [fileRefLine, frSegB_decomp, frSegC_decomp, nameSpan]
  simp [List.append_assoc, List.cons_append]

theorem span_in_context (x sp u v pre post : List Char) (hx : x = u ++ (sp ++ v)) :
    ∃ a b, pre ++ (x ++ post) = a ++ (sp ++ b) :=
  ⟨pre ++ u, v ++ post, by rw [hx]; simp [List.append_assoc]⟩

theorem insertAt_drop_ge (t ins : List Char) (p q : Nat) (hpt : p ≤ t.length)
    (hpq : p ≤ q) : (insertAt p ins t).drop (q + ins.length) = t.drop q := by
  rw [insertAt]
  have h1 : (t.take p ++ ins).length = p + ins.length := by
    simp [List.length_append, List.length_take]
    omega
  have h2 : (t.take p ++ ins).length ≤ q + ins.length := by omega
  have := (take_drop_append_ge (q + ins.length) (t.take p ++ ins) (t.drop p) h2).2
  rw [List.append_assoc] at this ⊢
  rw [this, h1, List.drop_drop]
  congr 1
  omega

theorem endBuildMarker_cons :
    endBuildMarker = '/' :: "* End PBXBuildFile section */".toList := by decide

theorem endFileRefMarker_cons :
    endFileRefMarker = '/' :: "* End PBXFileReference section */".toList := by decide

theorem insertAt_span_of_ins (p : Nat) (ins t sp u v : List Char)
    (hins : ins = u ++ (sp ++ v)) : ∃ a b, insertAt p ins t = a ++ (sp ++ b) :=
  ⟨t.take p ++ u, v ++ t.drop p, by rw [insertAt, hins]; simp [List.append_assoc]⟩

/-- Stage 1 of `update_project`: the PBXBuildFile insertion. -/
def stage1 (σ : Nat → Nat) (files : List PendingFile) (p1 : Nat)
    (content : List Char) : List Char :=
  insertAt p1 (joinNL ((assignRefs σ 0 files).map buildEntryLine) ++ ['\n']) content

/-- Stage 2: the PBXFileReference insertion. -/
def stage2 (σ : Nat → Nat) (files : List PendingFile) (p2 : Nat)
    (c1 : List Char) : List Char :=
  insertAt p2 (joinNL ((assignRefs σ 0 files).map fileRefLine) ++ ['\n']) c1

/-- Stage 3: the (optional) Sources-build-phase insertion. -/
def stage3 (σ : Nat → Nat) (files : List PendingFile) (c2 : List Char) : List Char :=
  match searchEnd sourcesMatchLen c2 with
  | some pos => insertAt pos ('\n' :: joinNL ((assignRefs σ 0 files).map sourcesLine)) c2
  | none => c2

/-- Stage 4: the per-group insertions (`none` if the loop aborts). -/
def stage4 (σ : Nat → Nat) (files : List PendingFile) (c3 : List Char) :
    Option (List Char) :=
  foldGroups (assignRefs σ 0 files)
    (((assignRefs σ 0 files).map fun r => r.pf.group).dedup) c3

theorem updateProject_eq_some (σ : Nat → Nat) (content : List Char)
    (files : List PendingFile) (hne : ¬ files = []) (p1 pf p2 : Nat)
    (hp1 : findSub endBuildMarker content = some p1)
    (hpf : findSub endFileRefMarker content = some pf)
    (hp2 : findSub endFileRefMarker (stage1 σ files p1 content) = some p2) :
    updateProject σ content files =
      stage4 σ files (stage3 σ files (stage2 σ files p2 (stage1 σ files p1 content))) := by
  rw [updateProject, if_neg hne]
  simp only [stage1, stage2, stage3, stage4] at hp2 ⊢
  simp only [hp1, hpf, hp2]

theorem stage1_keep_span (σ : Nat → Nat) (files : List PendingFile) (p1 : Nat)
    (content fn : List Char) (hp1 : findSub endBuildMarker content = some p1)
    (hfn : cleanChars fn) (hocc : ∃ a b, content = a ++ (nameSpan fn ++ b)) :
    ∃ a b, stage1 σ files p1 content = a ++ (nameSpan fn ++ b) := by
  rw [stage1]
  exact insert_marker_keep_span '/' _ _ (nameSpan fn) content p1
    (by rw [← endBuildMarker_cons]; exact hp1) (nameSpan_no_slash fn hfn) hocc

theorem stage2_keep_span (σ : Nat → Nat) (files : List PendingFile) (p2 : Nat)
    (c1 fn : List Char) (hp2 : findSub endFileRefMarker c1 = some p2)
    (hfn : cleanChars fn) (hocc : ∃ a b, c1 = a ++ (nameSpan fn ++ b)) :
    ∃ a b, stage2 σ files p2 c1 = a ++ (nameSpan fn ++ b) := by
  rw [stage2]
  exact insert_marker_keep_span '/' _ _ (nameSpan fn) c1 p2
    (by rw [← endFileRefMarker_cons]; exact hp2) (nameSpan_no_slash fn hfn) hocc

theorem stage2_new_span (σ : Nat → Nat) (files : List PendingFile) (p2 : Nat)
    (c1 : List Char) (f : PendingFile) (hf : f ∈ files) :
    ∃ a b, stage2 σ files p2 c1 = a ++ (nameSpan f.filename ++ b) := by
  obtain ⟨r, hr, hrpf⟩ := mem_assignRefs_of σ 0 files f hf
  obtain ⟨u2, v2, hline⟩ := fileRefLine_span r
  obtain ⟨u1, v1, hjoin⟩ := joinNL_mem_sub (fileRefLine r)
    ((assignRefs σ 0 files).map fileRefLine) (List.mem_map_of_mem _ hr)
  rw [stage2]
  refine insertAt_span_of_ins p2 _ c1 (nameSpan f.filename)
    (u1 ++ u2) (v2 ++ (v1 ++ ['\n'])) ?_
  rw [hjoin, hline, hrpf]
  simp [List.append_assoc]

theorem stage3_keep_span (σ : Nat → Nat) (files : List PendingFile)
    (c2 fn : List Char) (hfn : cleanChars fn)
    (hocc : ∃ a b, c2 = a ++ (nameSpan fn ++ b)) :
    ∃ a b, stage3 σ files c2 = a ++ (nameSpan fn ++ b) := by
  rw [stage3]
  cases hsrc : searchEnd sourcesMatchLen c2 with
  | none => simpa using hocc
  | some pos =>
    simp only
    exact insert_block_keep_span sourcesHead filesOpen (by decide) _
      (nameSpan fn) c2 pos hsrc (nameSpan_no_rparen fn hfn) hocc

theorem stage4_some_keep_span (σ : Nat → Nat) (files : List PendingFile)
    (c3 d fn : List Char) (hfn : cleanChars fn)
    (h : stage4 σ files c3 = some d)
    (hocc : ∃ a b, c3 = a ++ (nameSpan fn ++ b)) :
    ∃ a b, d = a ++ (nameSpan fn ++ b) := by
  rw [stage4] at h
  exact foldGroups_some_keep_span (assignRefs σ 0 files) (nameSpan fn)
    (nameSpan_no_rparen fn hfn) _ c3 d h hocc

theorem stage4_total (σ : Nat → Nat) (files : List PendingFile) (c3 : List Char)
    (hgrp : ∀ f ∈ files, regexLiteral f.group = true) :
    ∃ d, stage4 σ files c3 = some d := by
  rw [stage4]
  refine foldGroups_total (assignRefs σ 0 files) _ ?_ c3
  intro g hg
  have hg' : g ∈ (assignRefs σ 0 files).map fun r => r.pf.group :=
    List.dedup_subset _ hg
  obtain ⟨r, hr, rfl⟩ := List.mem_map.1 hg'
  have hrf : r.pf ∈ files := by
    rw [← assignRefs_map_pf σ 0 files]
    exact List.mem_map_of_mem _ hr
  exact hgrp r.pf hrf

theorem endBuildMarker_length : endBuildMarker.length = 30 := by decide

/-- Master lemma: a successful `update_project` run leaves a guarded
`; path = <fn>;` context in the final text for every pending file, and
preserves every such pre-existing context for clean names. -/
theorem updateProject_spans (σ : Nat → Nat) (content : List Char)
    (files : List PendingFile) (hne : ¬ files = [])
    (hgrp : ∀ f ∈ files, regexLiteral f.group = true)
    (p1 pf : Nat)
    (hp1 : findSub endBuildMarker content = some p1)
    (hpf : findSub endFileRefMarker content = some pf)
    (horder : p1 + endBuildMarker.length ≤ pf) :
    ∃ d1, updateProject σ content files = some d1 ∧
      (∀ f ∈ files, cleanChars f.filename →
        ∃ a b, d1 = a ++ (nameSpan f.filename ++ b)) ∧
      (∀ fn : List Char, cleanChars fn →
        (∃ a b, content = a ++ (nameSpan fn ++ b)) →
        ∃ a b, d1 = a ++ (nameSpan fn ++ b)) := by
  have hple := (findSub_sound _ content p1 hp1).2
  have hfrocc := (findSub_sound _ content pf hpf).1
  have hbm30 := endBuildMarker_length
  have hshift : (stage1 σ files p1 content).drop
      (pf + (joinNL ((assignRefs σ 0 files).map buildEntryLine) ++ ['\n']).length)
        = content.drop pf := by
    rw [stage1]
    exact insertAt_drop_ge content _ p1 pf hple (by omega)
  have hsome : (findSub endFileRefMarker (stage1 σ files p1 content)).isSome = true := by
    refine findSub_isSome_of _ _ (pf + (joinNL ((assignRefs σ 0 files).map buildEntryLine) ++ ['\n']).length) ?_
    rw [hshift]
    exact hfrocc
  obtain ⟨p2, hp2⟩ := Option.isSome_iff_exists.1 hsome
  obtain ⟨d1, hd1⟩ := stage4_total σ files
    (stage3 σ files (stage2 σ files p2 (stage1 σ files p1 content))) hgrp
  refine ⟨d1, ?_, ?_, ?_⟩
  · rw [updateProject_eq_some σ content files hne p1 pf p2 hp1 hpf hp2]
    exact hd1
  · intro f hf hfc
    refine stage4_some_keep_span σ files _ d1 _ hfc hd1 ?_
    refine stage3_keep_span σ files _ _ hfc ?_
    exact stage2_new_span σ files p2 _ f hf
  · intro fn hfc hocc
    refine stage4_some_keep_span σ files _ d1 fn hfc hd1 ?_
    refine stage3_keep_span σ files _ _ hfc ?_
    refine stage2_keep_span σ files p2 _ fn hp2 hfc ?_
    exact stage1_keep_span σ files p1 content fn hp1 hfc hocc

/-- C1: Idempotence.  For a manifest whose build-entries marker precedes its
file-reference marker (as in every real pbxproj) and a source tree of
well-formed `.swift` names whose group names (top-level directory names, or
the default group) are free of `re` metacharacters — so the interpolated
per-group pattern of line 152 is the literal one and cannot raise or match
astray — where every name already listed in the manifest occurs there in a
guarded `; path = <name>;` context: after one run, the second run finds an
empty pending set (every file-reference line inserted by run 1 is matched by
run 2's extractor, and names that were already present are still matched),
and the manifest text is unchanged by the second run. -/
theorem second_run_inserts_nothing (σ σ' : Nat → Nat)
    (tree : List (List (List Char))) (content : List Char) (p1 pf : Nat)
    (hp1 : findSub endBuildMarker content = some p1)
    (hpf : findSub endFileRefMarker content = some pf)
    (horder : p1 + endBuildMarker.length ≤ pf)
    (htree : ∀ parts ∈ tree, cleanSwiftName (parts.getLastD []))
    (hgrp : ∀ parts ∈ tree, regexLiteral
      (if 1 < parts.length then parts.headD [] else defaultGroup) = true)
    (hskip : ∀ parts ∈ tree, parts.getLastD [] ∈ extractExistingFiles content →
      ∃ a b, content = a ++ (nameSpan (parts.getLastD []) ++ b)) :
    findNewSwiftFiles tree (extractExistingFiles (runDisk σ tree content)) = [] ∧
      runDisk σ' tree (runDisk σ tree content) = runDisk σ tree content := by
  set pending := findNewSwiftFiles tree (extractExistingFiles content) with hpend
  by_cases hp : pending = []
  · have hd1 : runDisk σ tree content = content := by
      rw [runDisk, runTrace]
      simp [← hpend, hp]
    rw [hd1]
    refine ⟨by rw [← hpend]; exact hp, ?_⟩
    rw [runDisk, runTrace]
    simp [← hpend, hp]
  · have hgrp' : ∀ f ∈ pending, regexLiteral f.group = true := by
      intro f hf
      rw [hpend, findNewSwiftFiles] at hf
      obtain ⟨parts, hparts, hsome⟩ := List.mem_filterMap.1 hf
      by_cases hmem : parts.getLastD [] ∈ extractExistingFiles content
      · rw [if_pos hmem] at hsome
        exact absurd hsome (by simp)
      · rw [if_neg hmem] at hsome
        injection hsome with h'
        subst h'
        exact hgrp parts hparts
    obtain ⟨d1, hupd, hnew, hkeep⟩ :=
      updateProject_spans σ content pending hp hgrp' p1 pf hp1 hpf horder
    have hd1 : runDisk σ tree content = d1 := by
      rw [runDisk, runTrace]
      simp [← hpend, hp, hupd]
    have hall : ∀ parts ∈ tree, parts.getLastD [] ∈ extractExistingFiles d1 := by
      intro parts hparts
      obtain ⟨hsw, hlen, hcc⟩ := htree parts hparts
      by_cases hmem : parts.getLastD [] ∈ extractExistingFiles content
      · obtain ⟨a', b', hab'⟩ := hkeep _ hcc (hskip parts hparts hmem)
        exact mem_extract_of_span _ d1 a' b' (fun c hc => (hcc c hc).1)
          (fun c hc => (hcc c hc).2.1) hsw hlen hab'
      · have hpf' : (⟨joinSlash parts, parts.getLastD [],
            if 1 < parts.length then parts.headD [] else defaultGroup⟩
              : PendingFile) ∈ pending := by
          rw [hpend, findNewSwiftFiles]
          exact List.mem_filterMap.2 ⟨parts, hparts, by rw [if_neg hmem]⟩
        obtain ⟨a', b', hab'⟩ := hnew _ hpf' hcc
        exact mem_extract_of_span _ d1 a' b' (fun c hc => (hcc c hc).1)
          (fun c hc => (hcc c hc).2.1) hsw hlen hab'
    have hpend2 : findNewSwiftFiles tree (extractExistingFiles d1) = [] := by
      rw [findNewSwiftFiles, List.filterMap_eq_nil]
      intro parts hparts
      rw [if_pos (hall parts hparts)]
    refine ⟨by rw [hd1]; exact hpend2, ?_⟩
    rw [hd1, runDisk, runTrace]
    simp [hpend2]

/-! ## Claim C2 -/

/-- C2 counterexample: with `Sub1/Foo.swift` and `Sub2/Foo.swift` and an empty
existing-entry set, the scan pends **both** files (the claim says the second
is silently skipped, i.e. only one entry would appear): the loop tests only
against the manifest-derived set, which it never extends. -/
theorem same_basename_second_not_skipped :
    (findNewSwiftFiles
        [["Sub1".toList, "Foo.swift".toList], ["Sub2".toList, "Foo.swift".toList]]
        []).map PendingFile.filename
      = ["Foo.swift".toList, "Foo.swift".toList] ∧
    ¬ (findNewSwiftFiles
        [["Sub1".toList, "Foo.swift".toList], ["Sub2".toList, "Foo.swift".toList]]
        []).length = 1 := by
  exact ⟨by decide, by decide⟩

/-- C2 (amended): the scan pends every traversed file whose base name is not
in the existing-entry set — including later files repeating an earlier
pending base name; a file is skipped only when its base name is in the
existing-entry set derived from the manifest. -/
theorem scan_filename_multiset (tree : List (List (List Char)))
    (existing : List (List Char)) :
    (findNewSwiftFiles tree existing).map PendingFile.filename
      = (tree.map fun parts => parts.getLastD []).filter
          fun fn => decide (fn ∉ existing) := by
  induction tree with
  | nil => rfl
  | cons parts tree ih =>
    rw [findNewSwiftFiles, List.filterMap_cons]
    rw [findNewSwiftFiles] at ih
    by_cases hmem : parts.getLastD [] ∈ existing
    · rw [List.getLastD_eq_getLast?] at hmem
      simpa [hmem, List.filter_cons] using ih
    · rw [List.getLastD_eq_getLast?] at hmem
      simpa [hmem, List.filter_cons] using ih

/-! ## Claim C3 -/

/-- C3: if the build-entries end-marker or the file-reference end-marker is
absent, a run with pending files performs no insertion (`update_project`
returns the text unchanged; both anchors are checked before any splice) and
the on-disk manifest after the run is byte-identical to its prior content. -/
theorem missing_anchor_preserves_manifest (σ : Nat → Nat)
    (tree : List (List (List Char))) (content : List Char)
    (hmiss : findSub endBuildMarker content = none ∨
      findSub endFileRefMarker content = none)
    (hpend : ¬ findNewSwiftFiles tree (extractExistingFiles content) = []) :
    updateProject σ content (findNewSwiftFiles tree (extractExistingFiles content))
        = some content ∧
      runDisk σ tree content = content := by
  have hupd : updateProject σ content
      (findNewSwiftFiles tree (extractExistingFiles content)) = some content := by
    rw [updateProject, if_neg hpend]
    cases hfb : findSub endBuildMarker content with
    | none => simp [hfb]
    | some q1 =>
      cases hff : findSub endFileRefMarker content with
      | none => simp [hfb, hff]
      | some q2 =>
        exfalso
        rcases hmiss with h | h
        · rw [hfb] at h; exact absurd h (by simp)
        · rw [hff] at h; exact absurd h (by simp)
  refine ⟨hupd, ?_⟩
  rw [runDisk, runTrace]
  simp [hpend, hupd]

theorem missing_anchor_preserves_manifest_witness :
    (findSub endBuildMarker ([] : List Char) = none ∨
      findSub endFileRefMarker ([] : List Char) = none) ∧
    (updateProject (fun _ => 0) []
        (findNewSwiftFiles [["A.swift".toList]] (extractExistingFiles []))
          = some [] ∧
      runDisk (fun _ => 0) [["A.swift".toList]] [] = []) :=
  ⟨Or.inl (by decide),
    missing_anchor_preserves_manifest (fun _ => 0) [["A.swift".toList]] []
      (Or.inl (by decide)) (by decide)⟩

/-! ## Claim C4 -/

/-- C4 counterexample: in `path = path = a.swift;` the pattern occurs as a
substring at position 7 with capture `a.swift`, but the non-overlapping scan
of `re.findall` consumes the whole text from position 0 (capture
`path = a.swift`), so `a.swift` is *not* extracted: the extracted set is not
the set of captures of each substring of the stated form. -/
theorem extract_not_all_substrings :
    "a.swift".toList ∈ specAllCaptures ("path = path = a.swift;".toList) ∧
      "a.swift".toList ∉ extractExistingFiles ("path = path = a.swift;".toList) ∧
      ¬ (∀ x, x ∈ extractExistingFiles ("path = path = a.swift;".toList) ↔
          x ∈ specAllCaptures ("path = path = a.swift;".toList)) := by
  refine ⟨by decide, by decide, fun h => ?_⟩
  have := (h "a.swift".toList).2 (by decide)
  exact absurd this (by decide)

/-- C4 (amended): the extracted set is the quote-stripped captures of the
*left-to-right non-overlapping* matches of `path = ([^;]+\.swift);`; every
extracted name is in particular the stripped capture of the pattern matching
at some position of the text, so the extracted set is a subset of (but, by
the counterexample, not always equal to) the per-substring capture set. -/
theorem extraction_sound_for_positions (t x : List Char)
    (hx : x ∈ extractExistingFiles t) : x ∈ specAllCaptures t :=
  extract_sub_specAll t x hx

theorem extraction_sound_for_positions_witness :
    "A.swift".toList ∈ extractExistingFiles ("path = A.swift;".toList) ∧
      "A.swift".toList ∈ specAllCaptures ("path = A.swift;".toList) :=
  ⟨by decide, extraction_sound_for_positions _ _ (by decide)⟩

/-! ## Claim C5 -/

/-- C5: a scanned file whose base name is not in the existing-entry set
yields a pending record whose group is the first path segment when the
relative path has more than one segment, and the fixed default group
`VoiceControl` (the primary module name) otherwise. -/
theorem group_classification (tree : List (List (List Char)))
    (existing : List (List Char)) (parts : List (List Char))
    (hparts : parts ∈ tree) (hmem : parts.getLastD [] ∉ existing) :
    (⟨joinSlash parts, parts.getLastD [],
      if 1 < parts.length then parts.headD [] else defaultGroup⟩ : PendingFile)
        ∈ findNewSwiftFiles tree existing ∧
      defaultGroup = "VoiceControl".toList := by
  refine ⟨?_, rfl⟩
  rw [findNewSwiftFiles]
  exact List.mem_filterMap.2 ⟨parts, hparts, by rw [if_neg hmem]⟩

theorem group_classification_witness :
    ((⟨joinSlash ["Core".toList, "A.swift".toList], "A.swift".toList,
        "Core".toList⟩ : PendingFile)
      ∈ findNewSwiftFiles [["Core".toList, "A.swift".toList], ["B.swift".toList]] [] ∧
        defaultGroup = "VoiceControl".toList) ∧
    ((⟨joinSlash ["B.swift".toList], "B.swift".toList, defaultGroup⟩ : PendingFile)
      ∈ findNewSwiftFiles [["Core".toList, "A.swift".toList], ["B.swift".toList]] [] ∧
        defaultGroup = "VoiceControl".toList) := by
  constructor
  · have h := group_classification
      [["Core".toList, "A.swift".toList], ["B.swift".toList]] []
      ["Core".toList, "A.swift".toList] (by decide) (by decide)
    simpa using h
  · have h := group_classification
      [["Core".toList, "A.swift".toList], ["B.swift".toList]] []
      ["B.swift".toList] (by decide) (by decide)
    simpa using h

/-! ## Claim C7 -/

/-- C7: when the project-descriptor directory is absent, `main` prints an
error and stops: no read, no patch, no write, no crash — the manifest on disk
is untouched and the only event is the error message. -/
theorem missing_project_gate (σ : Nat → Nat) (s : SysState)
    (h : s.projExists = false) :
    mainTrace σ s = ([RunEvent.printedError], s.manifest) := by
  rw [mainTrace]
  simp [h]

theorem missing_project_gate_witness :
    (SysState.mk false ['x'] []).projExists = false ∧
      mainTrace (fun _ => 0) (SysState.mk false ['x'] [])
        = ([RunEvent.printedError], ['x']) :=
  ⟨rfl, missing_project_gate (fun _ => 0) (SysState.mk false ['x'] []) rfl⟩

/-! ## Claim C9 -/

/-- C9: when the scan pends nothing, the run reports that there is nothing to
add and stops: no identifier generation, no patching, no write — the trace is
exactly read-then-report and the on-disk manifest is unchanged. -/
theorem nothing_to_add_stops (σ : Nat → Nat) (tree : List (List (List Char)))
    (content : List Char)
    (hpend : findNewSwiftFiles tree (extractExistingFiles content) = []) :
    runTrace σ tree content
      = ([RunEvent.readProject, RunEvent.printedNoNew], content) := by
  rw [runTrace]
  simp [hpend]

theorem nothing_to_add_stops_witness :
    findNewSwiftFiles [["A.swift".toList]]
        (extractExistingFiles ("path = A.swift;".toList)) = [] ∧
      runTrace (fun _ => 0) [["A.swift".toList]] ("path = A.swift;".toList)
        = ([RunEvent.readProject, RunEvent.printedNoNew], "path = A.swift;".toList) :=
  ⟨by decide, nothing_to_add_stops (fun _ => 0) [["A.swift".toList]]
    ("path = A.swift;".toList) (by decide)⟩

/-! ## Claim C6 -/

def upperHexDigits : List Char := "0123456789ABCDEF".toList

theorem hexChar_toUpper_mem (m : Nat) (hm : m < 16) :
    (hexChar m).toUpper ∈ upperHexDigits := by
  interval_cases m <;> decide

theorem generateUuid_length (v : Nat) : (generateUuid v).length = 24 := by
  rw [generateUuid, List.length_map, List.length_take, hex32, List.length_map,
    List.length_range]
  decide

theorem generateUuid_upperHex (v : Nat) :
    ∀ c ∈ generateUuid v, c ∈ upperHexDigits := by
  intro c hc
  rw [generateUuid] at hc
  obtain ⟨d, hd, rfl⟩ := List.mem_map.1 hc
  have hd' : d ∈ hex32 v := (List.take_sublist 24 (hex32 v)).subset hd
  rw [hex32] at hd'
  obtain ⟨i, hi, rfl⟩ := List.mem_map.1 hd'
  exact hexChar_toUpper_mem _ (Nat.mod_lt _ (by omega))

/-- C6: each generated token comes from a 128-bit random value rendered as 32
lowercase hex digits, truncated to 24 characters and upper-cased
(`generateUuid`); every token is a 24-character uppercase-hex string, and the
assignment loop gives each pending file exactly two such tokens (a
file-reference token from the next random draw, then a build-entry token from
the draw after it), in input order. -/
theorem identifier_tokens_shape (σ : Nat → Nat) (i : Nat)
    (files : List PendingFile) :
    (assignRefs σ i files).map RefFile.pf = files ∧
      ∀ r ∈ assignRefs σ i files,
        (∃ j, r.fileRef = generateUuid (σ j) ∧ r.buildRef = generateUuid (σ (j + 1))) ∧
        r.fileRef.length = 24 ∧ r.buildRef.length = 24 ∧
        (∀ c ∈ r.fileRef, c ∈ upperHexDigits) ∧
        (∀ c ∈ r.buildRef, c ∈ upperHexDigits) := by
  refine ⟨assignRefs_map_pf σ i files, ?_⟩
  induction files generalizing i with
  | nil => intro r hr; simp [assignRefs] at hr
  | cons f fs ih =>
    intro r hr
    rw [assignRefs] at hr
    rcases List.mem_cons.1 hr with rfl | hr'
    · exact ⟨⟨i, rfl, rfl⟩, generateUuid_length _, generateUuid_length _,
        generateUuid_upperHex _, generateUuid_upperHex _⟩
    · exact ih (i + 2) r hr'

theorem identifier_tokens_shape_witness :
    ((assignRefs (fun n => n) 0
        [⟨"A.swift".toList, "A.swift".toList, defaultGroup⟩]).map RefFile.pf
      = [⟨"A.swift".toList, "A.swift".toList, defaultGroup⟩]) ∧
      ∀ r ∈ assignRefs (fun n => n) 0
          [⟨"A.swift".toList, "A.swift".toList, defaultGroup⟩],
        (∃ j, r.fileRef = generateUuid j ∧ r.buildRef = generateUuid (j + 1)) ∧
        r.fileRef.length = 24 ∧ r.buildRef.length = 24 ∧
        (∀ c ∈ r.fileRef, c ∈ upperHexDigits) ∧
        (∀ c ∈ r.buildRef, c ∈ upperHexDigits) :=
  identifier_tokens_shape (fun n => n) 0
    [⟨"A.swift".toList, "A.swift".toList, defaultGroup⟩]

/-! ## Claim C10 -/

theorem sublist_insertAt (p : Nat) (ins t : List Char) :
    t.Sublist (insertAt p ins t) := by
  rw [insertAt, List.append_assoc]
  have h1 : (t.drop p).Sublist (ins ++ t.drop p) := List.sublist_append_right _ _
  have h2 := h1.append_left (t.take p)
  rwa [List.take_append_drop] at h2

theorem sublist_addFilesToGroup (files : List RefFile) (g : List Char)
    (content c' : List Char) (h : addFilesToGroup files g content = some c') :
    content.Sublist c' := by
  rw [addFilesToGroup] at h
  by_cases hemp : files.filter (fun f => f.pf.group = g) = []
  · rw [if_pos hemp] at h
    injection h with h'
    subst h'
    exact List.Sublist.refl _
  · rw [if_neg hemp] at h
    by_cases hlit : regexLiteral g = true
    · rw [if_pos hlit] at h
      injection h with h'
      subst h'
      cases hse : searchEnd (groupMatchLen g) content with
      | none => simp [hse]
      | some pos =>
        simp only [hse]
        exact sublist_insertAt pos _ content
    · rw [if_neg hlit] at h
      exact absurd h (by simp)

theorem sublist_foldGroups (files : List RefFile) :
    ∀ (gs : List (List Char)) (c d : List Char),
      foldGroups files gs c = some d → c.Sublist d := by
  intro gs
  induction gs with
  | nil =>
    intro c d h
    rw [foldGroups] at h
    injection h with h'
    subst h'
    exact List.Sublist.refl _
  | cons g gs ih =>
    intro c d h
    rw [foldGroups] at h
    cases ha : addFilesToGroup files g c with
    | none => rw [ha] at h; exact absurd h (by simp)
    | some c1 =>
      rw [ha] at h
      exact (sublist_addFilesToGroup files g c c1 ha).trans (ih c1 d h)

/-- C10: every patch step only inserts text at a single position: whenever
`update_project` completes (returns a patched text rather than raising), the
original manifest text is a subsequence of the patched text, whose length is
therefore at least the original's. -/
theorem patch_only_inserts (σ : Nat → Nat) (content : List Char)
    (files : List PendingFile) (c' : List Char)
    (h : updateProject σ content files = some c') :
    content.Sublist c' ∧ content.length ≤ c'.length := by
  have hsub : content.Sublist c' := by
    rw [updateProject] at h
    by_cases hne : files = []
    · rw [if_pos hne] at h
      injection h with h'
      subst h'
      exact List.Sublist.refl _
    · rw [if_neg hne] at h
      cases hfb : findSub endBuildMarker content with
      | none =>
        simp only [hfb] at h
        injection h with h'
        subst h'
        exact List.Sublist.refl _
      | some p1 =>
        cases hff : findSub endFileRefMarker content with
        | none =>
          simp only [hfb, hff] at h
          injection h with h'
          subst h'
          exact List.Sublist.refl _
        | some pf =>
          simp only [hfb, hff] at h
          cases hf2 : findSub endFileRefMarker
              (insertAt p1 (joinNL ((assignRefs σ 0 files).map buildEntryLine)
                ++ ['\n']) content) with
          | none =>
            rw [hf2] at h
            exact absurd h (by simp)
          | some p2 =>
            rw [hf2] at h
            have s1 := sublist_insertAt p1
              (joinNL ((assignRefs σ 0 files).map buildEntryLine) ++ ['\n']) content
            have s2 := sublist_insertAt p2
              (joinNL ((assignRefs σ 0 files).map fileRefLine) ++ ['\n'])
              (insertAt p1 (joinNL ((assignRefs σ 0 files).map buildEntryLine)
                ++ ['\n']) content)
            refine (s1.trans (s2.trans ?_))
            set c2 := insertAt p2 (joinNL ((assignRefs σ 0 files).map fileRefLine)
              ++ ['\n']) (insertAt p1 (joinNL ((assignRefs σ 0 files).map
                buildEntryLine) ++ ['\n']) content) with hc2
            cases hsrc : searchEnd sourcesMatchLen c2 with
            | none =>
              simp only [hsrc] at h
              exact sublist_foldGroups _ _ _ _ h
            | some pos =>
              simp only [hsrc] at h
              exact (sublist_insertAt pos _ c2).trans (sublist_foldGroups _ _ _ _ h)
  exact ⟨hsub, hsub.length_le⟩

set_option maxRecDepth 40000 in
theorem patch_only_inserts_witness :
    updateProject (fun _ => 0)
        ("/* End PBXBuildFile section *//* End PBXFileReference section */".toList)
        [⟨"A.swift".toList, "A.swift".toList, defaultGroup⟩] =
      some ((updateProject (fun _ => 0)
        ("/* End PBXBuildFile section *//* End PBXFileReference section */".toList)
        [⟨"A.swift".toList, "A.swift".toList, defaultGroup⟩]).getD []) ∧
    ("/* End PBXBuildFile section *//* End PBXFileReference section */".toList).Sublist
        ((updateProject (fun _ => 0)
          ("/* End PBXBuildFile section *//* End PBXFileReference section */".toList)
          [⟨"A.swift".toList, "A.swift".toList, defaultGroup⟩]).getD []) ∧
      ("/* End PBXBuildFile section *//* End PBXFileReference section */".toList).length ≤
        ((updateProject (fun _ => 0)
          ("/* End PBXBuildFile section *//* End PBXFileReference section */".toList)
          [⟨"A.swift".toList, "A.swift".toList, defaultGroup⟩]).getD []).length := by
  have h : updateProject (fun _ => 0)
      ("/* End PBXBuildFile section *//* End PBXFileReference section */".toList)
      [⟨"A.swift".toList, "A.swift".toList, defaultGroup⟩] =
      some ((updateProject (fun _ => 0)
        ("/* End PBXBuildFile section *//* End PBXFileReference section */".toList)
        [⟨"A.swift".toList, "A.swift".toList, defaultGroup⟩]).getD []) := by decide
  exact ⟨h, (patch_only_inserts _ _ _ _ h).1, (patch_only_inserts _ _ _ _ h).2⟩

/-! ## Claim C8 -/

/-- C8: when both end-markers are present, every pending group name is free
of `re` metacharacters (so the interpolated per-group pattern of line 152 is
the literal one and cannot raise), and no Sources-build-phase anchor matches
in the twice-patched text, the run still performs the build-entry,
file-reference and group insertions and writes the result to disk; only the
build-phase membership insertion is omitted, with no error and no abort
(`update_project` returns normally and `write_project` runs). -/
theorem sources_anchor_silent_skip (σ : Nat → Nat)
    (tree : List (List (List Char))) (content : List Char)
    (files : List PendingFile) (p1 pf p2 : Nat)
    (hfiles : files = findNewSwiftFiles tree (extractExistingFiles content))
    (hne : ¬ files = [])
    (hgrp : ∀ f ∈ files, regexLiteral f.group = true)
    (hp1 : findSub endBuildMarker content = some p1)
    (hpf : findSub endFileRefMarker content = some pf)
    (hp2 : findSub endFileRefMarker (stage1 σ files p1 content) = some p2)
    (hsrc : searchEnd sourcesMatchLen
      (stage2 σ files p2 (stage1 σ files p1 content)) = none) :
    ∃ d, updateProject σ content files = some d ∧
      stage4 σ files (stage2 σ files p2 (stage1 σ files p1 content)) = some d ∧
      runDisk σ tree content = d := by
  have heq := updateProject_eq_some σ content files hne p1 pf p2 hp1 hpf hp2
  simp only [stage3, hsrc] at heq
  obtain ⟨d, hd⟩ :=
    stage4_total σ files (stage2 σ files p2 (stage1 σ files p1 content)) hgrp
  refine ⟨d, heq.trans hd, hd, ?_⟩
  rw [runDisk, runTrace, ← hfiles]
  simp [hne, heq, hd]

set_option maxRecDepth 40000 in
theorem sources_anchor_silent_skip_witness :
    searchEnd sourcesMatchLen
        (stage2 (fun _ => 0)
          (findNewSwiftFiles [["A.swift".toList]] (extractExistingFiles
            ("/* End PBXBuildFile section *//* End PBXFileReference section */".toList)))
          158
          (stage1 (fun _ => 0)
            (findNewSwiftFiles [["A.swift".toList]] (extractExistingFiles
              ("/* End PBXBuildFile section *//* End PBXFileReference section */".toList)))
            0
            ("/* End PBXBuildFile section *//* End PBXFileReference section */".toList)))
        = none ∧
    ∃ d, updateProject (fun _ => 0)
        ("/* End PBXBuildFile section *//* End PBXFileReference section */".toList)
        (findNewSwiftFiles [["A.swift".toList]] (extractExistingFiles
          ("/* End PBXBuildFile section *//* End PBXFileReference section */".toList)))
        = some d ∧
      stage4 (fun _ => 0)
          (findNewSwiftFiles [["A.swift".toList]] (extractExistingFiles
            ("/* End PBXBuildFile section *//* End PBXFileReference section */".toList)))
          (stage2 (fun _ => 0)
            (findNewSwiftFiles [["A.swift".toList]] (extractExistingFiles
              ("/* End PBXBuildFile section *//* End PBXFileReference section */".toList)))
            158
            (stage1 (fun _ => 0)
              (findNewSwiftFiles [["A.swift".toList]] (extractExistingFiles
                ("/* End PBXBuildFile section *//* End PBXFileReference section */".toList)))
              0
              ("/* End PBXBuildFile section *//* End PBXFileReference section */".toList)))
        = some d ∧
      runDisk (fun _ => 0) [["A.swift".toList]]
          ("/* End PBXBuildFile section *//* End PBXFileReference section */".toList)
        = d :=
  ⟨by decide,
    sources_anchor_silent_skip (fun _ => 0) [["A.swift".toList]]
      ("/* End PBXBuildFile section *//* End PBXFileReference section */".toList)
      (findNewSwiftFiles [["A.swift".toList]] (extractExistingFiles
        ("/* End PBXBuildFile section *//* End PBXFileReference section */".toList)))
      0 30 158 rfl (by decide) (by decide) (by decide) (by decide) (by decide)
      (by decide)⟩

set_option maxRecDepth 40000 in
theorem second_run_inserts_nothing_witness :
    findNewSwiftFiles [["A.swift".toList]]
        (extractExistingFiles (runDisk (fun _ => 0) [["A.swift".toList]]
          ("/* End PBXBuildFile section *//* End PBXFileReference section */".toList)))
        = [] ∧
      runDisk (fun _ => 1) [["A.swift".toList]]
          (runDisk (fun _ => 0) [["A.swift".toList]]
            ("/* End PBXBuildFile section *//* End PBXFileReference section */".toList))
        = runDisk (fun _ => 0) [["A.swift".toList]]
            ("/* End PBXBuildFile section *//* End PBXFileReference section */".toList) :=
  second_run_inserts_nothing (fun _ => 0) (fun _ => 1) [["A.swift".toList]]
    ("/* End PBXBuildFile section *//* End PBXFileReference section */".toList)
    0 30 (by decide) (by decide) (by decide) (by decide) (by decide)
    (by
      intro parts hp hmem
      rw [List.mem_singleton] at hp
      subst hp
      exact absurd hmem (by decide))
